import Mathlib

/-!
Shallow embedding of `src/lib/index.js` (a binary Merkle tree over byte
buffers) and verification of the specification's claims about it.

Modelling conventions:
* a JS `Buffer` is a `List Nat` of byte values (real buffers always hold
  values `< 256`; where a claim needs that fact it appears as an explicit
  `validBytes` hypothesis);
* the SHA3-256 primitive is an external black box per the spec, so the
  development is parameterised by an arbitrary digest function
  `H : Bytes → Bytes`;
* fallible operations (`getLayers`, the constructor, `getProof`) return
  `Except String _`, the error strings being the ones thrown by the code;
* the code's only mutation — `getNextLayer` pushing the empty sentinel onto
  its *argument*, which updates the layer already stored in `this._layers` —
  is modelled by storing `padLayer l` (the post-mutation value) in the layer
  stack at the point where the next layer is derived from `l`;
* the `while` loops of `getLayers` and `getProof` are modelled with an
  explicit fuel argument equal to the starting layer's length; each
  iteration strictly shrinks the layer, so this fuel is never exhausted
  (the lemmas below carry the invariant `layer.length ≤ fuel`).
-/

/-- Byte buffers are lists of byte values. -/
abbrev Bytes := List Nat

/-- `Buffer.compare`: byte-lexicographic comparison, a strict prefix being
smaller. -/
def bufCompare : Bytes → Bytes → Ordering
  | [], [] => .eq
  | [], _ :: _ => .lt
  | _ :: _, [] => .gt
  | a :: as, b :: bs => if a < b then .lt else if b < a then .gt else bufCompare as bs

/-- `sortAndConcat(first, second)`: sort the two buffers with
`Buffer.compare` (a stable two-element sort: swap exactly when
`compare first second > 0`), then concatenate. -/
def sortAndConcat (first second : Bytes) : Bytes :=
  if bufCompare first second = .gt then second ++ first else first ++ second

/-- `MerkleTree.combinedHash(first, second)`.  A missing (JS `undefined`)
argument is `none`; note that an *empty* buffer is truthy in JS, so only a
genuinely absent argument selects the single-sided branches.  When both
arguments are absent the code throws an invariant violation; no caller in
the file can reach that case, and the model returns the (unused) empty
buffer there. -/
def combinedHash (H : Bytes → Bytes) : Option Bytes → Option Bytes → Bytes
  | none, none => []
  | none, some second => H second
  | some first, none => H first
  | some first, some second => H (sortAndConcat first second)

/-- The odd-length padding step `if (elements.length % 2 === 1)
elements.push(EMPTY)`, shared by the constructor and `getNextLayer`. -/
def padLayer (l : List Bytes) : List Bytes :=
  if l.length % 2 = 1 then l ++ [[]] else l

/-- The pairing `reduce` of `getNextLayer`: each element at an even index is
combined with `arr[idx + 1]`; on a trailing unpaired element `arr[idx + 1]`
is `undefined`, selecting `combinedHash`'s single-sided branch (unreachable
after padding, but kept to mirror the array access). -/
def pairUp (H : Bytes → Bytes) : List Bytes → List Bytes
  | [] => []
  | [a] => [combinedHash H (some a) none]
  | a :: b :: rest => combinedHash H (some a) (some b) :: pairUp H rest

/-- `getNextLayer`: pad the incoming layer to even length (mutating it in
the code), then hash adjacent pairs. -/
def getNextLayer (H : Bytes → Bytes) (elements : List Bytes) : List Bytes :=
  pairUp H (padLayer elements)

/-- The `while` loop of `getLayers`, with fuel.  The stored non-final layers
are the padded ones, reflecting the in-place `push` performed by
`getNextLayer` on the layer most recently stored. -/
def getLayersGo (H : Bytes → Bytes) : Nat → List Bytes → List (List Bytes)
  | 0, l => [l]
  | fuel + 1, l =>
    if l.length ≤ 1 then [l]
    else padLayer l :: getLayersGo H fuel (getNextLayer H l)

def emptyTreeMsg : String := "empty tree"

/-- `getLayers`: throws on an empty element list, otherwise reduces layer by
layer until a single node remains. -/
def getLayers (H : Bytes → Bytes) (elements : List Bytes) : Except String (List (List Bytes)) :=
  if elements.length = 0 then .error emptyTreeMsg
  else .ok (getLayersGo H elements.length elements)

/-- One lowercase hex digit, as produced by `Buffer.toString('hex')`. -/
def hexDigit : Nat → Char
  | 0 => '0' | 1 => '1' | 2 => '2' | 3 => '3' | 4 => '4'
  | 5 => '5' | 6 => '6' | 7 => '7' | 8 => '8' | 9 => '9'
  | 10 => 'a' | 11 => 'b' | 12 => 'c' | 13 => 'd' | 14 => 'e' | 15 => 'f'
  | _ => 'x'

/-- The character stream of `Buffer.toString('hex')`: two digits per byte. -/
def hexChars : List Nat → List Char
  | [] => []
  | b :: rest => hexDigit (b / 16) :: hexDigit (b % 16) :: hexChars rest

/-- `el.toString('hex')`. -/
def hexEncode (l : Bytes) : String := ⟨hexChars l⟩

/-- The `reduce` building `_bufferElementPositionIndex`: an object keyed by
hex strings, later assignments overwriting earlier ones. -/
def buildIndexGo : Nat → List Bytes → (String → Option Nat) → String → Option Nat
  | _, [], memo => memo
  | index, el :: rest, memo =>
    buildIndexGo (index + 1) rest
      (fun key => if key = hexEncode el then some index else memo key)

def buildIndex (elements : List Bytes) : String → Option Nat :=
  buildIndexGo 0 elements (fun _ => none)

/-- A merkle tree instance: the (padded) element list, the hex-keyed
position index and the layer stack, exactly the fields set by the
constructor. -/
structure MerkleTree where
  elements : List Bytes
  positionIndex : String → Option Nat
  layers : List (List Bytes)

/-- `new MerkleTree(elements)`: copy the input, push the empty sentinel when
the count is odd (the same step as `padLayer`), build the position index
from the padded list, then build the layers (whose failure on an empty list
propagates out of the constructor). -/
def construct (H : Bytes → Bytes) (elements : List Bytes) : Except String MerkleTree :=
  let originalElements := padLayer elements
  match getLayers H originalElements with
  | .error msg => .error msg
  | .ok layers =>
    .ok { elements := originalElements
          positionIndex := buildIndex originalElements
          layers := layers }

/-- `getRoot()`: the single element of the last layer.  The code guards it
with an invariant that a constructed tree always satisfies. -/
def MerkleTree.getRoot (t : MerkleTree) : Bytes :=
  (t.layers.getLastD []).headD []

/-- `getHexRoot()`: note the code applies `toString('hex')` directly, with
no prefix. -/
def MerkleTree.getHexRoot (t : MerkleTree) : String :=
  hexEncode t.getRoot

/-- `getPairElement(idx, layer)`: the sibling index, `null` when out of
bounds.  The in-bounds invariant check never fires (array elements are
buffers, and even an empty buffer is truthy). -/
def getPairElement (idx : Nat) (layer : List Bytes) : Option Bytes :=
  let pairIdx := if idx % 2 = 0 then idx + 1 else idx - 1
  if pairIdx < layer.length then some (layer.getD pairIdx []) else none

/-- The `while` loop of `getProof`, with fuel: record the sibling (or the
empty sentinel when there is none), halve the index, recompute the next
layer. -/
def getProofGo (H : Bytes → Bytes) : Nat → List Bytes → Nat → List Bytes
  | 0, _, _ => []
  | fuel + 1, currentLayer, idx =>
    if currentLayer.length ≤ 1 then []
    else
      ((getPairElement idx currentLayer).getD []) ::
        getProofGo H fuel (getNextLayer H currentLayer) (idx / 2)

def notFoundMsg : String := "Element does not exist in Merkle tree"

/-- `getProof(el)`: look the element's hex encoding up in the position
index (`typeof initialIdx !== 'number'` detects exactly an absent key, the
stored values all being numbers), then walk up the layers. -/
def MerkleTree.getProof (H : Bytes → Bytes) (t : MerkleTree) (el : Bytes) :
    Except String (List Bytes) :=
  match t.positionIndex (hexEncode el) with
  | none => .error notFoundMsg
  | some initialIdx => .ok (getProofGo H t.elements.length t.elements initialIdx)

def hex0x : String := "0x"

/-- `bufArrToHexArr`: prefix each element's hex form with `0x`.  Its
runtime `Buffer.isBuffer` guard cannot fire in the typed model, where every
element is a buffer by construction. -/
def bufArrToHexArr (arr : List Bytes) : List String :=
  arr.map (fun el => hex0x ++ hexEncode el)

/-- `getHexProof(el)`. -/
def MerkleTree.getHexProof (H : Bytes → Bytes) (t : MerkleTree) (el : Bytes) :
    Except String (List String) :=
  (t.getProof H el).map bufArrToHexArr

/-- The comparison `computedHash <= element` of `verify`.  (JS coerces the
buffers to strings here; the model uses byte order.  The choice is
immaterial: both branches hash the same two buffers and `combinedHash`
sorts its arguments, see `verifyStep_eq`.) -/
def bufLe (a b : Bytes) : Bool := bufCompare a b != Ordering.gt

/-- One iteration of `verify`'s loop. -/
def verifyStep (H : Bytes → Bytes) (computedHash element : Bytes) : Bytes :=
  if bufLe computedHash element then combinedHash H (some computedHash) (some element)
  else combinedHash H (some element) (some computedHash)

/-- The loop of `verify`: fold the proof entries over the leaf. -/
def verifyFold (H : Bytes → Bytes) (proof : List Bytes) (leaf : Bytes) : Bytes :=
  proof.foldl (fun computedHash element => verifyStep H computedHash element) leaf

/-- `verify(proof, leaf)`: an *instance* method — the expected root is not a
parameter, it is `this.getRoot()`. -/
def MerkleTree.verify (H : Bytes → Bytes) (t : MerkleTree) (proof : List Bytes)
    (leaf : Bytes) : Bool :=
  verifyFold H proof leaf == t.getRoot

/-- Modelled from the spec: the specification's `Verify(proof, leaf, root)`
— a pure three-argument verifier replaying the pairwise combination rule
and comparing with an explicitly supplied root (the code has no such
standalone function; its `verify` is an instance method). -/
def verifyPure (H : Bytes → Bytes) (proof : List Bytes) (leaf root : Bytes) : Bool :=
  (proof.foldl (fun computedHash element =>
    if bufLe computedHash element then combinedHash H (some computedHash) (some element)
    else combinedHash H (some element) (some computedHash)) leaf) == root

/-- Real buffers hold byte values below 256. -/
def validBytes (l : Bytes) : Prop := ∀ b ∈ l, b < 256

/-- The lowercase hex alphabet: the sixteen characters `hexDigit` emits on
in-range inputs. -/
def hexAlphabet : List Char := (List.range 16).map hexDigit

/-- Rounding a count up to the next even number: the length effect of
`padLayer`. -/
def nextEven (n : Nat) : Nat := if n % 2 = 1 then n + 1 else n

/-- The last index of `elements` whose hex encoding is `key`; the
overwriting object build makes lookups resolve to this index. -/
def lastIdxOf (key : String) : List Bytes → Option Nat
  | [] => none
  | el :: rest =>
    match lastIdxOf key rest with
    | some j => some (j + 1)
    | none => if hexEncode el = key then some 0 else none

/-- A default tree value, used only to name concrete constructed trees in
closed statements. -/
def mtDefault : MerkleTree := ⟨[], fun _ => none, []⟩

/-- A concrete stand-in digest function for counterexamples. -/
def cHash : Bytes → Bytes := fun l => 42 :: l

/-- A concrete digest function whose outputs are valid byte buffers. -/
def vHash : Bytes → Bytes := fun l => [l.length % 256]

/-! ### Basic list helpers -/

theorem getD_append_left {α : Type} (d : α) :
    ∀ (l l' : List α) (n : Nat), n < l.length → (l ++ l').getD n d = l.getD n d
  | [], _, n, h => by simp at h
  | a :: l, l', 0, _ => rfl
  | a :: l, l', n + 1, h => by
    simpa using getD_append_left d l l' n (by simpa using h)

theorem getD_append_right_here {α : Type} (d : α) :
    ∀ (l l' : List α), (l ++ l').getD l.length d = l'.getD 0 d
  | [], _ => rfl
  | a :: l, l' => by simpa using getD_append_right_here d l l'

theorem getD_mem {α : Type} (d : α) :
    ∀ (l : List α) (n : Nat), n < l.length → l.getD n d ∈ l
  | [], n, h => by simp at h
  | a :: l, 0, _ => by simp
  | a :: l, n + 1, h => by
    simpa using Or.inr (getD_mem d l n (by simpa using h))

theorem getLastD_irrel {α : Type} : ∀ (l : List α), l ≠ [] → ∀ (a b : α),
    l.getLastD a = l.getLastD b
  | [], h, _, _ => absurd rfl h
  | x :: xs, _, a, b => by rw [List.getLastD_cons, List.getLastD_cons]

/-! ### Comparison and hashing lemmas -/

theorem bufCompare_eq_eq : ∀ {a b : Bytes}, bufCompare a b = .eq → a = b
  | [], [], _ => rfl
  | [], _ :: _, h => by simp [bufCompare] at h
  | _ :: _, [], h => by simp [bufCompare] at h
  | a :: as, b :: bs, h => by
    unfold bufCompare at h
    split at h
    · exact absurd h (by simp)
    · split at h
      · exact absurd h (by simp)
      · have hab : a = b := by omega
        rw [hab, bufCompare_eq_eq h]

theorem bufCompare_swap : ∀ (a b : Bytes), bufCompare b a = (bufCompare a b).swap
  | [], [] => rfl
  | [], _ :: _ => rfl
  | _ :: _, [] => rfl
  | a :: as, b :: bs => by
    unfold bufCompare
    rcases Nat.lt_trichotomy a b with h | h | h
    · simp [h, Nat.not_lt_of_lt h, Ordering.swap]
    · simp [h, Nat.lt_irrefl, bufCompare_swap as bs]
    · simp [h, Nat.not_lt_of_lt h, Ordering.swap]

theorem sortAndConcat_comm (a b : Bytes) : sortAndConcat a b = sortAndConcat b a := by
  unfold sortAndConcat
  rcases h : bufCompare a b with hlt | heq | hgt
  · have h' : bufCompare b a = .gt := by rw [bufCompare_swap a b, h]; rfl
    simp [h, h']
  · have hab : a = b := bufCompare_eq_eq h
    simp [hab]
  · have h' : bufCompare b a = .lt := by rw [bufCompare_swap a b, h]; rfl
    simp [h, h']

theorem sortAndConcat_nil_right : ∀ (a : Bytes), sortAndConcat a [] = a
  | [] => rfl
  | x :: xs => by
    unfold sortAndConcat
    simp [bufCompare]

theorem combinedHash_comm (H : Bytes → Bytes) (a b : Bytes) :
    combinedHash H (some a) (some b) = combinedHash H (some b) (some a) := by
  show H (sortAndConcat a b) = H (sortAndConcat b a)
  rw [sortAndConcat_comm]

theorem verifyStep_eq (H : Bytes → Bytes) (a b : Bytes) :
    verifyStep H a b = combinedHash H (some a) (some b) := by
  unfold verifyStep
  split
  · rfl
  · exact (combinedHash_comm H b a)

/-! ### Layer building lemmas -/

theorem pairUp_length (H : Bytes → Bytes) :
    ∀ l : List Bytes, (pairUp H l).length = (l.length + 1) / 2
  | [] => rfl
  | [a] => by simp [pairUp]
  | _ :: _ :: rest => by
    simp only [pairUp, List.length_cons, pairUp_length H rest]
    omega

theorem pairUp_getD (H : Bytes → Bytes) :
    ∀ (l : List Bytes) (k : Nat), 2 * k + 1 < l.length →
      (pairUp H l).getD k [] =
        combinedHash H (some (l.getD (2 * k) [])) (some (l.getD (2 * k + 1) []))
  | [], k, h => by simp at h
  | [a], k, h => by
    simp only [List.length_singleton] at h
    exact absurd h (by omega)
  | a :: b :: rest, 0, _ => rfl
  | a :: b :: rest, k + 1, h => by
    have h' : 2 * k + 1 < rest.length := by
      simp only [List.length_cons] at h
      omega
    have e1 : (a :: b :: rest).getD (2 * (k + 1)) [] = rest.getD (2 * k) [] := by
      have e : 2 * (k + 1) = 2 * k + 1 + 1 := by omega
      rw [e, List.getD_cons_succ, List.getD_cons_succ]
    have e2 : (a :: b :: rest).getD (2 * (k + 1) + 1) [] = rest.getD (2 * k + 1) [] := by
      have e : 2 * (k + 1) + 1 = 2 * k + 1 + 1 + 1 := by omega
      rw [e, List.getD_cons_succ, List.getD_cons_succ]
    rw [e1, e2]
    show (pairUp H rest).getD k [] = _
    exact pairUp_getD H rest k h'

theorem padLayer_length (l : List Bytes) : (padLayer l).length = nextEven l.length := by
  unfold padLayer nextEven
  split <;> simp_all

theorem padLayer_even (l : List Bytes) : (padLayer l).length % 2 = 0 := by
  rw [padLayer_length]; unfold nextEven; split <;> omega

theorem padLayer_length_ge (l : List Bytes) : l.length ≤ (padLayer l).length := by
  rw [padLayer_length]; unfold nextEven; split <;> omega

theorem padLayer_length_le (l : List Bytes) : (padLayer l).length ≤ l.length + 1 := by
  rw [padLayer_length]; unfold nextEven; split <;> omega

theorem padLayer_getD_left (l : List Bytes) (j : Nat) (h : j < l.length) :
    (padLayer l).getD j [] = l.getD j [] := by
  unfold padLayer
  split
  · exact getD_append_left [] l [[]] j h
  · rfl

theorem padLayer_getD_pad (l : List Bytes) (h : l.length % 2 = 1) :
    (padLayer l).getD l.length [] = [] := by
  unfold padLayer
  rw [if_pos h]
  rw [getD_append_right_here]
  rfl

theorem getNextLayer_length (H : Bytes → Bytes) (l : List Bytes) :
    (getNextLayer H l).length = ((padLayer l).length + 1) / 2 := by
  unfold getNextLayer
  exact pairUp_length H (padLayer l)

theorem getNextLayer_length_lt (H : Bytes → Bytes) (l : List Bytes) (h : 2 ≤ l.length) :
    (getNextLayer H l).length < l.length := by
  have h1 := getNextLayer_length H l
  have h2 := padLayer_length_ge l
  have h3 := padLayer_length_le l
  have h4 := padLayer_even l
  omega

theorem getNextLayer_length_pos (H : Bytes → Bytes) (l : List Bytes) (h : 1 ≤ l.length) :
    1 ≤ (getNextLayer H l).length := by
  have h1 := getNextLayer_length H l
  have h2 := padLayer_length_ge l
  omega

theorem getLayersGo_ne_nil (H : Bytes → Bytes) :
    ∀ (fuel : Nat) (l : List Bytes), getLayersGo H fuel l ≠ []
  | 0, l => by simp [getLayersGo]
  | fuel + 1, l => by
    unfold getLayersGo
    split <;> simp

theorem getPairElement_of_even (idx : Nat) (layer : List Bytes) (h : idx % 2 = 0) :
    getPairElement idx layer =
      if idx + 1 < layer.length then some (layer.getD (idx + 1) []) else none := by
  simp [getPairElement, h]

theorem getPairElement_of_odd (idx : Nat) (layer : List Bytes) (h : idx % 2 = 1) :
    getPairElement idx layer =
      if idx - 1 < layer.length then some (layer.getD (idx - 1) []) else none := by
  simp [getPairElement, h]

/-- The core sibling/parent relation: the `verify`-style combination of an
element with the sibling recorded by `getPairElement` is exactly the parent
node in the next layer. -/
theorem getNextLayer_getD (H : Bytes → Bytes) (layer : List Bytes) (idx : Nat)
    (h : idx < layer.length) :
    (getNextLayer H layer).getD (idx / 2) [] =
      combinedHash H (some (layer.getD idx [])) (some ((getPairElement idx layer).getD [])) := by
  have hple := padLayer_length_le layer
  have hpge := padLayer_length_ge layer
  have hpev := padLayer_even layer
  rcases Nat.even_or_odd idx with he | ho
  · -- idx even: the pair index is idx + 1
    have hidx2 : idx % 2 = 0 := Nat.even_iff.mp he
    have h2k : 2 * (idx / 2) = idx := by omega
    rw [getPairElement_of_even idx layer hidx2]
    by_cases hlt : idx + 1 < layer.length
    · rw [if_pos hlt]
      unfold getNextLayer
      rw [pairUp_getD H (padLayer layer) (idx / 2) (by omega), h2k,
        padLayer_getD_left layer idx h, padLayer_getD_left layer (idx + 1) hlt]
      rfl
    · -- idx is the last element of an odd-length layer: sibling is the sentinel
      rw [if_neg hlt]
      have hlast : idx + 1 = layer.length := by omega
      have hodd : layer.length % 2 = 1 := by omega
      unfold getNextLayer
      rw [pairUp_getD H (padLayer layer) (idx / 2) (by omega), h2k,
        padLayer_getD_left layer idx h]
      have hp : (padLayer layer).getD (idx + 1) [] = [] := by
        rw [hlast]; exact padLayer_getD_pad layer hodd
      rw [hp]
      rfl
  · -- idx odd: the pair index is idx - 1
    have hidx2 : idx % 2 = 1 := Nat.odd_iff.mp ho
    have h1le : 1 ≤ idx := by omega
    have h2k : 2 * (idx / 2) = idx - 1 := by omega
    have h2k1 : 2 * (idx / 2) + 1 = idx := by omega
    rw [getPairElement_of_odd idx layer hidx2,
      if_pos (by omega : idx - 1 < layer.length)]
    unfold getNextLayer
    rw [pairUp_getD H (padLayer layer) (idx / 2) (by omega), h2k1, h2k,
      padLayer_getD_left layer (idx - 1) (by omega), padLayer_getD_left layer idx h]
    simp only [Option.getD_some]
    exact combinedHash_comm H (layer.getD (idx - 1) []) (layer.getD idx [])

/-- Replaying a generated proof from the leaf at `idx` reproduces exactly
the root of the layer stack built from the same layer. -/
theorem verifyFold_getProofGo (H : Bytes → Bytes) :
    ∀ (fuel : Nat) (layer : List Bytes) (idx : Nat), layer.length ≤ fuel →
      idx < layer.length →
      verifyFold H (getProofGo H fuel layer idx) (layer.getD idx []) =
        ((getLayersGo H fuel layer).getLastD []).headD []
  | 0, layer, idx, hf, hi => by
    simp only [Nat.le_zero, List.length_eq_zero] at hf
    subst hf
    simp at hi
  | fuel + 1, layer, idx, hf, hi => by
    by_cases hb : layer.length ≤ 1
    · -- the loop stops: the layer is the root layer
      have hl1 : layer.length = 1 := by omega
      have hidx0 : idx = 0 := by omega
      subst hidx0
      unfold getProofGo getLayersGo
      rw [if_pos hb, if_pos hb]
      rcases layer with _ | ⟨x, xs⟩
      · simp at hl1
      · rcases xs with _ | ⟨y, ys⟩
        · simp [verifyFold, List.getLastD]
        · simp at hl1
    · have h2 : 2 ≤ layer.length := by omega
      have hnext_lt := getNextLayer_length_lt H layer h2
      have hidx2 : idx / 2 < (getNextLayer H layer).length := by
        have e1 := getNextLayer_length H layer
        have e2 := padLayer_even layer
        have e3 := padLayer_length_ge layer
        omega
      unfold getProofGo getLayersGo
      rw [if_neg hb, if_neg hb]
      show verifyFold H (getProofGo H fuel (getNextLayer H layer) (idx / 2))
          (verifyStep H (layer.getD idx []) ((getPairElement idx layer).getD [])) = _
      rw [verifyStep_eq, ← getNextLayer_getD H layer idx hi]
      rw [verifyFold_getProofGo H fuel (getNextLayer H layer) (idx / 2) (by omega) hidx2]
      have hne := getLayersGo_ne_nil H fuel (getNextLayer H layer)
      rw [List.getLastD_cons, getLastD_irrel _ hne (padLayer layer) []]

/-- Structure of the layer stack produced by `getLayersGo`: it is nonempty,
its final layer is a singleton, its head is the (padded) input, it has two
or more layers exactly when the input has two or more nodes, every stored
non-root layer has even length, a stored layer followed by two further
layers has its own length's half rounded up to even as successor length
(the in-place padding!), and the layer right below the root has length 2. -/
theorem getLayersGo_props (H : Bytes → Bytes) :
    ∀ (fuel : Nat) (l : List Bytes), 1 ≤ l.length → l.length ≤ fuel →
      getLayersGo H fuel l ≠ [] ∧
      ((getLayersGo H fuel l).getLastD []).length = 1 ∧
      (getLayersGo H fuel l).getD 0 [] = (if l.length ≤ 1 then l else padLayer l) ∧
      (2 ≤ (getLayersGo H fuel l).length ↔ 2 ≤ l.length) ∧
      (∀ i, i + 1 < (getLayersGo H fuel l).length →
        ((getLayersGo H fuel l).getD i []).length % 2 = 0) ∧
      (∀ i, i + 2 < (getLayersGo H fuel l).length →
        ((getLayersGo H fuel l).getD (i + 1) []).length =
          nextEven (((getLayersGo H fuel l).getD i []).length / 2)) ∧
      (∀ i, i + 2 = (getLayersGo H fuel l).length →
        ((getLayersGo H fuel l).getD (i + 1) []).length =
            ((getLayersGo H fuel l).getD i []).length / 2 ∧
          ((getLayersGo H fuel l).getD i []).length = 2)
  | 0, l, h1, h0 => by omega
  | fuel + 1, l, h1, hf => by
    by_cases hb : l.length ≤ 1
    · have hl1 : l.length = 1 := by omega
      unfold getLayersGo
      rw [if_pos hb]
      refine ⟨by simp, ?_, by simp [hb], by simp [List.length_singleton]; omega, ?_, ?_, ?_⟩
      · simp [List.getLastD, hl1]
      · intro i hi
        simp only [List.length_singleton] at hi
        omega
      · intro i hi
        simp only [List.length_singleton] at hi
        omega
      · intro i hi
        simp only [List.length_singleton] at hi
        omega
    · have h2 : 2 ≤ l.length := by omega
      have hnext_lt := getNextLayer_length_lt H l h2
      have hnext_pos := getNextLayer_length_pos H l (by omega)
      have hnl := getNextLayer_length H l
      have hpe := padLayer_even l
      have hpg := padLayer_length_ge l
      have hpl := padLayer_length_le l
      obtain ⟨ih_ne, ih_last, ih_head, ih_two, ih_even, ih_chain, ih_root⟩ :=
        getLayersGo_props H fuel (getNextLayer H l) (by omega) (by omega)
      unfold getLayersGo
      rw [if_neg hb]
      have hcons_last :
          ((padLayer l :: getLayersGo H fuel (getNextLayer H l)).getLastD []) =
            (getLayersGo H fuel (getNextLayer H l)).getLastD [] := by
        rw [List.getLastD_cons, getLastD_irrel _ ih_ne (padLayer l) []]
      refine ⟨by simp, ?_, by simp [hb], ?_, ?_, ?_, ?_⟩
      · rw [hcons_last]; exact ih_last
      · constructor
        · intro _; omega
        · intro _
          have : 1 ≤ (getLayersGo H fuel (getNextLayer H l)).length :=
            List.length_pos.mpr ih_ne
          simp only [List.length_cons]
          omega
      · intro i hi
        match i with
        | 0 => simpa using hpe
        | j + 1 =>
          simp only [List.length_cons] at hi
          simpa using ih_even j (by omega)
      · intro i hi
        match i with
        | 0 =>
          -- the successor of the head layer
          simp only [List.length_cons] at hi
          have htwo : 2 ≤ (getNextLayer H l).length := by
            have := ih_two.mp (by omega)
            exact this
          have hh :
              (getLayersGo H fuel (getNextLayer H l)).getD 0 [] =
                padLayer (getNextLayer H l) := by
            rw [ih_head, if_neg (by omega)]
          simp only [List.getD_cons_succ, List.getD_cons_zero]
          rw [hh, padLayer_length]
          congr 1
          omega
        | j + 1 =>
          simp only [List.length_cons] at hi
          simpa using ih_chain j (by omega)
      · intro i hi
        match i with
        | 0 =>
          simp only [List.length_cons] at hi
          have hone : (getLayersGo H fuel (getNextLayer H l)).length = 1 := by omega
          have hn1 : ¬ 2 ≤ (getNextLayer H l).length := by
            intro hc
            have := ih_two.mpr hc
            omega
          have hnl1 : (getNextLayer H l).length = 1 := by omega
          have hh :
              (getLayersGo H fuel (getNextLayer H l)).getD 0 [] = getNextLayer H l := by
            rw [ih_head, if_pos (by omega)]
          simp only [List.getD_cons_succ, List.getD_cons_zero]
          rw [hh]
          constructor
          · omega
          · omega
        | j + 1 =>
          simp only [List.length_cons] at hi
          have := ih_root j (by omega)
          simpa using this

/-! ### Position index lemmas -/

/-- The overwriting object build resolves a key to the *last* index bearing
it (and to the prior `memo` when no element bears it). -/
theorem buildIndexGo_char :
    ∀ (l : List Bytes) (i : Nat) (memo : String → Option Nat) (k : String),
      buildIndexGo i l memo k = (lastIdxOf k l).elim (memo k) (fun j => some (i + j))
  | [], _, _, _ => rfl
  | el :: rest, i, memo, k => by
    have hstep : lastIdxOf k (el :: rest) =
        match lastIdxOf k rest with
        | some j => some (j + 1)
        | none => if hexEncode el = k then some 0 else none := rfl
    show buildIndexGo (i + 1) rest
        (fun key => if key = hexEncode el then some i else memo key) k = _
    rw [buildIndexGo_char rest (i + 1) _ k, hstep]
    rcases h : lastIdxOf k rest with _ | j
    · show (if k = hexEncode el then some i else memo k) =
        (if hexEncode el = k then some 0 else none).elim (memo k) (fun j => some (i + j))
      by_cases he : hexEncode el = k
      · rw [if_pos he, if_pos he.symm]
        simp
      · have he' : ¬ (k = hexEncode el) := fun hh => he hh.symm
        rw [if_neg he, if_neg he']
        simp
    · show some (i + 1 + j) = some (i + (j + 1))
      congr 1
      omega

theorem buildIndex_eq (elements : List Bytes) (k : String) :
    buildIndex elements k = lastIdxOf k elements := by
  unfold buildIndex
  rw [buildIndexGo_char]
  rcases h : lastIdxOf k elements with _ | j <;> simp

theorem lastIdxOf_sound (k : String) :
    ∀ (l : List Bytes) (j : Nat), lastIdxOf k l = some j →
      j < l.length ∧ hexEncode (l.getD j []) = k
  | [], j, h => by simp [lastIdxOf] at h
  | el :: rest, j, h => by
    unfold lastIdxOf at h
    rcases hr : lastIdxOf k rest with _ | j'
    · rw [hr] at h
      simp only at h
      by_cases he : hexEncode el = k
      · rw [if_pos he] at h
        injection h with h0
        subst h0
        exact ⟨by simp, by simpa using he⟩
      · rw [if_neg he] at h
        cases h
    · rw [hr] at h
      simp only at h
      injection h with h0
      subst h0
      obtain ⟨h1, h2⟩ := lastIdxOf_sound k rest j' hr
      constructor
      · simp only [List.length_cons]
        omega
      · simpa using h2

theorem lastIdxOf_of_mem (e : Bytes) :
    ∀ l : List Bytes, e ∈ l → ∃ j, lastIdxOf (hexEncode e) l = some j
  | [], h => absurd h (List.not_mem_nil e)
  | el :: rest, h => by
    unfold lastIdxOf
    rcases hr : lastIdxOf (hexEncode e) rest with _ | j
    · rcases List.mem_cons.mp h with he | hm
      · subst he
        exact ⟨0, by simp [hr]⟩
      · obtain ⟨j, hj⟩ := lastIdxOf_of_mem e rest hm
        rw [hj] at hr
        cases hr
    · exact ⟨j + 1, by simp [hr]⟩

/-- Last-wins: an index bearing the key with no later index bearing it is
the resolved index. -/
theorem lastIdxOf_last (k : String) :
    ∀ (l : List Bytes) (i : Nat), i < l.length → hexEncode (l.getD i []) = k →
      (∀ j, i < j → j < l.length → hexEncode (l.getD j []) ≠ k) →
      lastIdxOf k l = some i
  | [], i, hi, _, _ => by simp at hi
  | el :: rest, i, hi, hk, hno => by
    unfold lastIdxOf
    rcases i with _ | i'
    · have hrest : lastIdxOf k rest = none := by
        rcases hr : lastIdxOf k rest with _ | j
        · rfl
        · obtain ⟨hj1, hj2⟩ := lastIdxOf_sound k rest j hr
          exfalso
          refine hno (j + 1) (by omega) (by simp only [List.length_cons]; omega) ?_
          simpa using hj2
      have hk0 : hexEncode el = k := by simpa using hk
      simp [hrest, hk0]
    · have hk' : hexEncode (rest.getD i' []) = k := by simpa using hk
      have hno' : ∀ j, i' < j → j < rest.length → hexEncode (rest.getD j []) ≠ k := by
        intro j hj1 hj2
        have := hno (j + 1) (by omega) (by simp only [List.length_cons]; omega)
        simpa using this
      have hi' : i' < rest.length := by
        simp only [List.length_cons] at hi
        omega
      have := lastIdxOf_last k rest i' hi' hk' hno'
      simp [this]

/-! ### Hex encoding lemmas -/

theorem hexDigit_mem_alphabet : ∀ n, n < 16 → hexDigit n ∈ hexAlphabet := by decide

theorem hexDigit_inj : ∀ a, a < 16 → ∀ b, b < 16 → hexDigit a = hexDigit b → a = b := by
  decide

theorem hexChars_inj : ∀ (a : Bytes), validBytes a → ∀ (b : Bytes), validBytes b →
    hexChars a = hexChars b → a = b
  | [], _, [], _, _ => rfl
  | [], _, _ :: _, _, h => by simp [hexChars] at h
  | _ :: _, _, [], _, h => by simp [hexChars] at h
  | x :: xs, ha, y :: ys, hb, h => by
    unfold hexChars at h
    injection h with h1 h'
    injection h' with h2 h3
    have hx : x < 256 := ha x (by simp)
    have hy : y < 256 := hb y (by simp)
    have e1 : x / 16 = y / 16 := hexDigit_inj _ (by omega) _ (by omega) h1
    have e2 : x % 16 = y % 16 := hexDigit_inj _ (by omega) _ (by omega) h2
    have exy : x = y := by omega
    subst exy
    rw [hexChars_inj xs (fun b hb' => ha b (by simp [hb'])) ys
      (fun b hb' => hb b (by simp [hb'])) h3]

theorem hexEncode_inj (a b : Bytes) (ha : validBytes a) (hb : validBytes b)
    (h : hexEncode a = hexEncode b) : a = b := by
  apply hexChars_inj a ha b hb
  have hd := congrArg String.data h
  simpa [hexEncode] using hd

theorem hexChars_mem_alphabet : ∀ (l : Bytes), validBytes l →
    ∀ c ∈ hexChars l, c ∈ hexAlphabet
  | [], _, c, hc => by simp [hexChars] at hc
  | b :: rest, hv, c, hc => by
    unfold hexChars at hc
    have hb : b < 256 := hv b (by simp)
    simp only [List.mem_cons] at hc
    rcases hc with hc | hc | hc
    · exact hc ▸ hexDigit_mem_alphabet (b / 16) (by omega)
    · exact hc ▸ hexDigit_mem_alphabet (b % 16) (by omega)
    · exact hexChars_mem_alphabet rest (fun x hx => hv x (by simp [hx])) c hc

/-! ### Constructor characterization -/

theorem construct_ok (H : Bytes → Bytes) (leaves : List Bytes) (t : MerkleTree)
    (h : construct H leaves = .ok t) :
    t.elements = padLayer leaves ∧
    t.positionIndex = buildIndex (padLayer leaves) ∧
    t.layers = getLayersGo H (padLayer leaves).length (padLayer leaves) ∧
    1 ≤ (padLayer leaves).length := by
  by_cases hz : (padLayer leaves).length = 0
  · exfalso
    have hcon : construct H leaves = .error emptyTreeMsg := by
      simp only [construct, getLayers]
      rw [if_pos hz]
    rw [hcon] at h
    exact absurd h (by simp)
  · have hcon : construct H leaves =
        .ok { elements := padLayer leaves
              positionIndex := buildIndex (padLayer leaves)
              layers := getLayersGo H (padLayer leaves).length (padLayer leaves) } := by
      simp only [construct, getLayers]
      rw [if_neg hz]
    rw [hcon] at h
    injection h with h'
    subst h'
    exact ⟨rfl, rfl, rfl, by omega⟩

theorem construct_isOk (H : Bytes → Bytes) (leaves : List Bytes) (h : leaves ≠ []) :
    ∃ t, construct H leaves = .ok t := by
  have hz : ¬ (padLayer leaves).length = 0 := by
    have hp := padLayer_length_ge leaves
    have hl : 1 ≤ leaves.length := List.length_pos.mpr h
    omega
  refine ⟨{ elements := padLayer leaves
            positionIndex := buildIndex (padLayer leaves)
            layers := getLayersGo H (padLayer leaves).length (padLayer leaves) }, ?_⟩
  simp only [construct, getLayers]
  rw [if_neg hz]

/-! ### Byte-validity preservation -/

theorem pairUp_valid (H : Bytes → Bytes) (hH : ∀ l, validBytes (H l)) :
    ∀ l : List Bytes, ∀ y ∈ pairUp H l, validBytes y
  | [], y, hy => by simp [pairUp] at hy
  | [a], y, hy => by
    simp only [pairUp, List.mem_singleton] at hy
    subst hy
    exact hH a
  | a :: b :: rest, y, hy => by
    simp only [pairUp, List.mem_cons] at hy
    rcases hy with hy | hy
    · subst hy
      exact hH _
    · exact pairUp_valid H hH rest y hy

theorem padLayer_valid (l : List Bytes) (hv : ∀ x ∈ l, validBytes x) :
    ∀ x ∈ padLayer l, validBytes x := by
  intro x hx
  unfold padLayer at hx
  split at hx
  · rcases List.mem_append.mp hx with h | h
    · exact hv x h
    · simp only [List.mem_singleton] at h
      subst h
      intro b hb
      simp at hb
  · exact hv x hx

theorem getPairElement_mem (idx : Nat) (layer : List Bytes) (p : Bytes)
    (h : getPairElement idx layer = some p) : p ∈ layer := by
  rcases Nat.even_or_odd idx with he | ho
  · rw [getPairElement_of_even idx layer (Nat.even_iff.mp he)] at h
    by_cases hc : idx + 1 < layer.length
    · rw [if_pos hc] at h
      injection h with h'
      subst h'
      exact getD_mem [] layer (idx + 1) hc
    · rw [if_neg hc] at h
      cases h
  · rw [getPairElement_of_odd idx layer (Nat.odd_iff.mp ho)] at h
    by_cases hc : idx - 1 < layer.length
    · rw [if_pos hc] at h
      injection h with h'
      subst h'
      exact getD_mem [] layer (idx - 1) hc
    · rw [if_neg hc] at h
      cases h

theorem getProofGo_valid (H : Bytes → Bytes) (hH : ∀ l, validBytes (H l)) :
    ∀ (fuel : Nat) (layer : List Bytes) (idx : Nat), (∀ x ∈ layer, validBytes x) →
      ∀ y ∈ getProofGo H fuel layer idx, validBytes y
  | 0, _, _, _, y, hy => by simp [getProofGo] at hy
  | fuel + 1, layer, idx, hv, y, hy => by
    unfold getProofGo at hy
    split at hy
    · simp at hy
    · simp only [List.mem_cons] at hy
      rcases hy with hy | hy
      · subst hy
        rcases hgp : getPairElement idx layer with _ | p
        · intro b hb
          simp at hb
        · exact hv p (getPairElement_mem idx layer p hgp)
      · exact getProofGo_valid H hH fuel (getNextLayer H layer) (idx / 2)
          (fun x hx => pairUp_valid H hH (padLayer layer) x hx) y hy

theorem getLayersRoot_valid (H : Bytes → Bytes) (hH : ∀ l, validBytes (H l)) :
    ∀ (fuel : Nat) (l : List Bytes), (∀ x ∈ l, validBytes x) →
      validBytes (((getLayersGo H fuel l).getLastD []).headD [])
  | 0, l, hv => by
    show validBytes (l.headD [])
    rcases l with _ | ⟨x, xs⟩
    · intro b hb
      simp at hb
    · exact hv x (by simp)
  | fuel + 1, l, hv => by
    by_cases hb : l.length ≤ 1
    · unfold getLayersGo
      rw [if_pos hb]
      show validBytes (l.headD [])
      rcases l with _ | ⟨x, xs⟩
      · intro b hb'
        simp at hb'
      · exact hv x (by simp)
    · unfold getLayersGo
      rw [if_neg hb]
      have hne := getLayersGo_ne_nil H fuel (getNextLayer H l)
      rw [List.getLastD_cons, getLastD_irrel _ hne (padLayer l) []]
      exact getLayersRoot_valid H hH fuel (getNextLayer H l)
        (fun x hx => pairUp_valid H hH (padLayer l) x hx)

theorem getProof_ok_valid (H : Bytes → Bytes) (hH : ∀ l, validBytes (H l))
    (t : MerkleTree) (e : Bytes) (proof : List Bytes)
    (hv : ∀ x ∈ t.elements, validBytes x)
    (h : t.getProof H e = .ok proof) : ∀ y ∈ proof, validBytes y := by
  have hgp : t.getProof H e =
      match t.positionIndex (hexEncode e) with
      | none => .error notFoundMsg
      | some initialIdx => .ok (getProofGo H t.elements.length t.elements initialIdx) := rfl
  rcases hl : t.positionIndex (hexEncode e) with _ | idx
  · rw [hl] at hgp
    rw [hgp] at h
    cases h
  · rw [hl] at hgp
    rw [hgp] at h
    cases h
    exact getProofGo_valid H hH t.elements.length t.elements idx hv

instance (l : Bytes) : Decidable (validBytes l) :=
  inferInstanceAs (Decidable (∀ b ∈ l, b < 256))

instance {ε α : Type} [DecidableEq ε] [DecidableEq α] : DecidableEq (Except ε α)
  | .error a, .error b =>
    if h : a = b then .isTrue (by rw [h])
    else .isFalse (by intro hc; cases hc; exact h rfl)
  | .error _, .ok _ => .isFalse (by intro hc; cases hc)
  | .ok _, .error _ => .isFalse (by intro hc; cases hc)
  | .ok a, .ok b =>
    if h : a = b then .isTrue (by rw [h])
    else .isFalse (by intro hc; cases hc; exact h rfl)

theorem padLayer_one (a : Bytes) : padLayer [a] = [a, []] := by
  unfold padLayer
  rw [if_pos (by simp)]
  rfl

theorem padLayer_two (a b : Bytes) : padLayer [a, b] = [a, b] := by
  unfold padLayer
  rw [if_neg (by simp)]

/-- Naming the tree produced by a successful construction through
`toOption.getD` (used to phrase closed witnesses). -/
theorem construct_ok_getD (H : Bytes → Bytes) (leaves : List Bytes) (h : leaves ≠ []) :
    construct H leaves = .ok ((construct H leaves).toOption.getD mtDefault) := by
  obtain ⟨t, ht⟩ := construct_isOk H leaves h
  rw [ht]
  rfl

/-! ### Claims -/

/-- Claim C1: for every tree constructed from a non-empty leaf sequence and
every leaf `e` present in the (possibly padded) leaf layer, the proof
generated for `e` verifies against the tree's root:
`Verify(Proof(e), e, Root()) == true` (in the code: `t.verify(proof, e)`
compares with `t.getRoot()`). -/
theorem claim_C1_inclusion (H : Bytes → Bytes) (leaves : List Bytes) (t : MerkleTree)
    (e : Bytes) (hok : construct H leaves = .ok t)
    (hval : ∀ l ∈ leaves, validBytes l) (hmem : e ∈ t.elements) :
    ∃ p, t.getProof H e = .ok p ∧ t.verify H p e = true := by
  obtain ⟨hel, hpi, hly, hlen⟩ := construct_ok H leaves t hok
  have hvalelems : ∀ x ∈ t.elements, validBytes x := by
    rw [hel]
    exact padLayer_valid leaves hval
  obtain ⟨j, hj⟩ := lastIdxOf_of_mem e t.elements hmem
  have hlookup : t.positionIndex (hexEncode e) = some j := by
    rw [hpi, buildIndex_eq, ← hel, hj]
  obtain ⟨hjlt, hjhex⟩ := lastIdxOf_sound (hexEncode e) t.elements j hj
  have hje : t.elements.getD j [] = e :=
    hexEncode_inj _ _ (hvalelems _ (getD_mem [] t.elements j hjlt)) (hvalelems e hmem) hjhex
  refine ⟨getProofGo H t.elements.length t.elements j, ?_, ?_⟩
  · show (match t.positionIndex (hexEncode e) with
      | none => Except.error notFoundMsg
      | some initialIdx => Except.ok (getProofGo H t.elements.length t.elements initialIdx)) =
        Except.ok (getProofGo H t.elements.length t.elements j)
    rw [hlookup]
  · show (verifyFold H (getProofGo H t.elements.length t.elements j) e == t.getRoot) = true
    simp only [beq_iff_eq]
    rw [← hje, verifyFold_getProofGo H t.elements.length t.elements j le_rfl hjlt,
      MerkleTree.getRoot, hly, hel]

/-- Claim C1 witness: a concrete two-leaf tree in which the proof generated
for the first leaf verifies. -/
theorem claim_C1_inclusion_witness :
    ∃ p, ((construct cHash [[1], [2]]).toOption.getD mtDefault).getProof cHash [1] =
        .ok p ∧
      ((construct cHash [[1], [2]]).toOption.getD mtDefault).verify cHash p [1] = true :=
  claim_C1_inclusion cHash [[1], [2]] ((construct cHash [[1], [2]]).toOption.getD mtDefault)
    [1] (construct_ok_getD cHash [[1], [2]] (by decide)) (by decide) (by decide)

/-- Claim C2 counterexample: the tree built from the single leaf `0x01` does
*not* have that leaf as its root — the constructor pads the one-element list
with the sentinel and hashes the pair, so the root is the digest of the
leaf, not the leaf. -/
theorem claim_C2_counterexample :
    (construct cHash [[1]]).toOption.map MerkleTree.getRoot ≠ some [1] := by decide

/-- Claim C2 (amended): a tree built from exactly one leaf `x` is padded to
the two-element layer `[x, sentinel]` and performs exactly one hash
operation — the layer stack is `[[x, sentinel], [H x]]` — so `Root()` is
`H x` (the digest of `x` alone, the sorted concatenation with the empty
sentinel being `x` itself), not `x`. -/
theorem claim_C2_single_leaf_root (H : Bytes → Bytes) (x : Bytes) :
    (construct H [x]).toOption.map MerkleTree.elements = some [x, []] ∧
    (construct H [x]).toOption.map MerkleTree.layers = some [[x, []], [H x]] ∧
    (construct H [x]).toOption.map MerkleTree.getRoot = some (H x) := by
  have hsc : sortAndConcat x [] = x := sortAndConcat_nil_right x
  have hL1 : getLayersGo H 1 [H (sortAndConcat x [])] = [[H (sortAndConcat x [])]] := rfl
  have hnext : getNextLayer H [x, []] = [H (sortAndConcat x [])] := by
    unfold getNextLayer
    rw [padLayer_two]
    rfl
  have hL2 : getLayersGo H 2 [x, []] = [[x, []], [H (sortAndConcat x [])]] := by
    show (if ([x, []] : List Bytes).length ≤ 1 then [[x, []]]
      else padLayer [x, []] :: getLayersGo H 1 (getNextLayer H [x, []])) = _
    rw [if_neg (by simp), padLayer_two, hnext, hL1]
  have hgl : getLayers H [x, []] = .ok [[x, []], [H (sortAndConcat x [])]] := by
    unfold getLayers
    rw [if_neg (by simp), show ([x, ([] : Bytes)] : List Bytes).length = 2 from by simp, hL2]
  have hcon : construct H [x] = .ok
      { elements := [x, []]
        positionIndex := buildIndex [x, []]
        layers := [[x, []], [H (sortAndConcat x [])]] } := by
    simp only [construct]
    rw [padLayer_one, hgl]
  rw [hcon, hsc]
  exact ⟨rfl, rfl, rfl⟩

/-- Claim C3 counterexample: the verification operation is an instance
method and its result depends on the constructed tree's state — the same
`(proof, leaf)` pair verifies against one tree and fails against another. -/
theorem claim_C3_counterexample :
    ¬ (((construct cHash [[1]]).toOption.getD mtDefault).verify cHash [] [42, 1] =
        ((construct cHash [[2]]).toOption.getD mtDefault).verify cHash [] [42, 1]) := by
  decide

/-- Claim C3 (amended): `verify(proof, leaf)` takes two explicit inputs and
reads the expected root from its instance; it equals a pure three-argument
verifier applied to `(proof, leaf, this tree's root)`, so the instance
state enters only through `getRoot()`. -/
theorem claim_C3_verify_pure_of_root (H : Bytes → Bytes) (t : MerkleTree)
    (proof : List Bytes) (leaf : Bytes) :
    t.verify H proof leaf = verifyPure H proof leaf t.getRoot := rfl

/-- Claim C4 counterexample: pairing the non-empty buffer `0x01` with the
zero-length sentinel (sort, concatenate, digest) yields the *same* digest
as the single-sided hash of `0x01` alone — not a different one. -/
theorem claim_C4_counterexample :
    combinedHash cHash (some [1]) (some []) = combinedHash cHash (some [1]) none := by
  decide

/-- Claim C4 (amended): for every digest function and every buffer `c`,
verification's pair hashing of `c` with the sentinel coincides with
construction's single-sided hashing of `c`: the sentinel sorts first and
concatenating the zero-length buffer is the identity, so both sides digest
exactly `c`. -/
theorem claim_C4_sentinel_pair_hash (H : Bytes → Bytes) (c : Bytes) :
    combinedHash H (some c) (some []) = combinedHash H (some c) none ∧
    combinedHash H (some c) (some []) = H c ∧
    sortAndConcat c [] = c := by
  have hsc : sortAndConcat c [] = c := sortAndConcat_nil_right c
  refine ⟨?_, ?_, hsc⟩
  · show H (sortAndConcat c []) = H c
    rw [hsc]
  · show H (sortAndConcat c []) = H c
    rw [hsc]

/-- Claim C5: constructing from the empty leaf sequence fails with the
empty-tree error and produces no tree; constructing from any non-empty leaf
sequence succeeds. -/
theorem claim_C5_empty_tree (H : Bytes → Bytes) :
    construct H [] = .error emptyTreeMsg ∧
    ∀ leaves : List Bytes, leaves ≠ [] → ∃ t, construct H leaves = .ok t := by
  exact ⟨rfl, fun leaves h => construct_isOk H leaves h⟩

/-- Claim C5 witness: the empty input errors and the one-leaf input
succeeds, at a concrete digest function. -/
theorem claim_C5_empty_tree_witness :
    construct cHash [] = .error emptyTreeMsg ∧ ∃ t, construct cHash [[1]] = .ok t :=
  ⟨(claim_C5_empty_tree cHash).1, (claim_C5_empty_tree cHash).2 [[1]] (by decide)⟩

/-- Claim C6: for a constructed tree, `getProof` fails with the
not-found error exactly when the element's hex encoding is absent from the
position index; on failure only the error is returned, no proof. -/
theorem claim_C6_not_found (H : Bytes → Bytes) (leaves : List Bytes) (t : MerkleTree)
    (e : Bytes) (hok : construct H leaves = .ok t) :
    (t.getProof H e = .error notFoundMsg) ↔ t.positionIndex (hexEncode e) = none := by
  have hgp : t.getProof H e =
      match t.positionIndex (hexEncode e) with
      | none => .error notFoundMsg
      | some initialIdx => .ok (getProofGo H t.elements.length t.elements initialIdx) := rfl
  rw [hgp]
  rcases hl : t.positionIndex (hexEncode e) with _ | idx <;> simp

/-- Claim C6 witness: on the one-leaf tree, asking for the absent leaf
`0x02` errors exactly because the index lookup is empty. -/
theorem claim_C6_not_found_witness :
    (((construct cHash [[1]]).toOption.getD mtDefault).getProof cHash [2] =
        .error notFoundMsg) ↔
      ((construct cHash [[1]]).toOption.getD mtDefault).positionIndex (hexEncode [2]) =
        none :=
  claim_C6_not_found cHash [[1]] ((construct cHash [[1]]).toOption.getD mtDefault) [2]
    (construct_ok_getD cHash [[1]] (by decide))

/-- Claim C7: the position index is last-wins — if position `i` holds value
`v` and no later position's value shares `v`'s hex encoding, the index maps
`v` to `i` and `getProof(v)` walks up from position `i`. -/
theorem claim_C7_last_wins (H : Bytes → Bytes) (leaves : List Bytes) (t : MerkleTree)
    (v : Bytes) (i : Nat) (hok : construct H leaves = .ok t)
    (hi : i < t.elements.length) (hv : t.elements.getD i [] = v)
    (hlast : ∀ j, i < j → j < t.elements.length →
      hexEncode (t.elements.getD j []) ≠ hexEncode v) :
    t.positionIndex (hexEncode v) = some i ∧
    t.getProof H v = .ok (getProofGo H t.elements.length t.elements i) := by
  obtain ⟨hel, hpi, _, _⟩ := construct_ok H leaves t hok
  have hli : lastIdxOf (hexEncode v) t.elements = some i :=
    lastIdxOf_last (hexEncode v) t.elements i hi (by rw [hv]) hlast
  have hlookup : t.positionIndex (hexEncode v) = some i := by
    rw [hpi, buildIndex_eq, ← hel, hli]
  refine ⟨hlookup, ?_⟩
  show (match t.positionIndex (hexEncode v) with
    | none => Except.error notFoundMsg
    | some initialIdx => Except.ok (getProofGo H t.elements.length t.elements initialIdx)) =
      Except.ok (getProofGo H t.elements.length t.elements i)
  rw [hlookup]

/-- Claim C7 witness: the duplicate construction `[0x01, 0x01]` stores index
1 for `0x01` and `getProof(0x01)` is the walk from index 1, not index 0. -/
theorem claim_C7_last_wins_witness :
    ((construct cHash [[1], [1]]).toOption.getD mtDefault).positionIndex
        (hexEncode [1]) = some 1 ∧
      ((construct cHash [[1], [1]]).toOption.getD mtDefault).getProof cHash [1] =
        .ok (getProofGo cHash
          ((construct cHash [[1], [1]]).toOption.getD mtDefault).elements.length
          ((construct cHash [[1], [1]]).toOption.getD mtDefault).elements 1) :=
  claim_C7_last_wins cHash [[1], [1]]
    ((construct cHash [[1], [1]]).toOption.getD mtDefault) [1] 1
    (construct_ok_getD cHash [[1], [1]] (by decide)) (by decide) (by decide)
    (by
      intro j h1 h2
      have hlen : ((construct cHash [[1], [1]]).toOption.getD
          mtDefault).elements.length = 2 := by decide
      rw [hlen] at h2
      exact absurd h2 (by omega))

/-- Claim C8 counterexample: from six leaves the stored layer stack has
lengths `[6, 4, 2, 1]` — so the second layer's length, 4, is *not* half the
layer below rounded up (`⌈6 / 2⌉ = 3`): the stored intermediate layer was
padded in place when its successor was derived. -/
theorem claim_C8_counterexample :
    ((construct cHash [[1], [2], [3], [4], [5], [6]]).toOption.getD
        mtDefault).layers.map List.length = [6, 4, 2, 1] ∧
      (((construct cHash [[1], [2], [3], [4], [5], [6]]).toOption.getD
          mtDefault).layers.getD 1 []).length ≠
        ((((construct cHash [[1], [2], [3], [4], [5], [6]]).toOption.getD
          mtDefault).layers.getD 0 []).length + 1) / 2 := by
  decide

/-- Claim C8 (amended): in a constructed tree's stored layer stack every
non-root layer has even length and the final layer has length exactly 1;
but the successor-length relation is: a non-root successor layer has the
length of the layer below halved and then rounded up to the next *even*
number (its own in-place padding), while the root layer has exactly half
the length of the layer below it, that layer having length 2. -/
theorem claim_C8_layer_shape (H : Bytes → Bytes) (leaves : List Bytes) (t : MerkleTree)
    (hok : construct H leaves = .ok t) :
    (∀ i, i + 1 < t.layers.length → (t.layers.getD i []).length % 2 = 0) ∧
    (∀ i, i + 2 < t.layers.length →
      (t.layers.getD (i + 1) []).length = nextEven ((t.layers.getD i []).length / 2)) ∧
    (∀ i, i + 2 = t.layers.length →
      (t.layers.getD (i + 1) []).length = (t.layers.getD i []).length / 2 ∧
      (t.layers.getD i []).length = 2) ∧
    ((t.layers.getLastD []).length = 1) := by
  obtain ⟨_, _, hly, hlen⟩ := construct_ok H leaves t hok
  obtain ⟨_, hlast, _, _, heven, hchain, hroot⟩ :=
    getLayersGo_props H (padLayer leaves).length (padLayer leaves) hlen le_rfl
  rw [hly]
  exact ⟨heven, hchain, hroot, hlast⟩

/-- Claim C8 witness: the layer-shape invariants instantiated on a concrete
three-leaf tree. -/
theorem claim_C8_layer_shape_witness :
    (∀ i, i + 1 < ((construct cHash [[1], [2], [3]]).toOption.getD
        mtDefault).layers.length →
      ((((construct cHash [[1], [2], [3]]).toOption.getD
        mtDefault).layers.getD i []).length % 2 = 0)) ∧
    (∀ i, i + 2 < ((construct cHash [[1], [2], [3]]).toOption.getD
        mtDefault).layers.length →
      ((((construct cHash [[1], [2], [3]]).toOption.getD
          mtDefault).layers.getD (i + 1) []).length =
        nextEven ((((construct cHash [[1], [2], [3]]).toOption.getD
          mtDefault).layers.getD i []).length / 2))) ∧
    (∀ i, i + 2 = ((construct cHash [[1], [2], [3]]).toOption.getD
        mtDefault).layers.length →
      ((((construct cHash [[1], [2], [3]]).toOption.getD
          mtDefault).layers.getD (i + 1) []).length =
        (((construct cHash [[1], [2], [3]]).toOption.getD
          mtDefault).layers.getD i []).length / 2) ∧
      ((((construct cHash [[1], [2], [3]]).toOption.getD
        mtDefault).layers.getD i []).length = 2)) ∧
    ((((construct cHash [[1], [2], [3]]).toOption.getD
      mtDefault).layers.getLastD []).length = 1) :=
  claim_C8_layer_shape cHash [[1], [2], [3]]
    ((construct cHash [[1], [2], [3]]).toOption.getD mtDefault)
    (construct_ok_getD cHash [[1], [2], [3]] (by decide))

/-- Claim C9 counterexample: the public root hex output of a concrete tree
is `2a01` — lowercase hex but with *no* `0x` prefix, contradicting the
claim that every public hex output is `0x`-prefixed. -/
theorem claim_C9_counterexample :
    ((construct cHash [[1]]).toOption.getD mtDefault).getHexRoot = "2a01" ∧
    ("2a01" : String).data.take 2 ≠ ['0', 'x'] := by decide

/-- Claim C9 (amended): every character of `getHexRoot` is a lowercase hex
digit but the root hex is *not* `0x`-prefixed; every `getHexProof` element
is `0x` followed by lowercase hex digits. -/
theorem claim_C9_hex_outputs (H : Bytes → Bytes) (leaves : List Bytes) (t : MerkleTree)
    (e : Bytes) (hp : List String) (hok : construct H leaves = .ok t)
    (hval : ∀ l ∈ leaves, validBytes l) (hH : ∀ l, validBytes (H l))
    (hhp : t.getHexProof H e = .ok hp) :
    (∀ c ∈ (MerkleTree.getHexRoot t).data, c ∈ hexAlphabet) ∧
    ((MerkleTree.getHexRoot t).data.take 2 ≠ ['0', 'x']) ∧
    (∀ s ∈ hp, ∃ bs, s = hex0x ++ hexEncode bs ∧
      ∀ c ∈ (hexEncode bs).data, c ∈ hexAlphabet) := by
  obtain ⟨hel, _, hly, hlen⟩ := construct_ok H leaves t hok
  have hvalelems : ∀ x ∈ t.elements, validBytes x := by
    rw [hel]
    exact padLayer_valid leaves hval
  have hrootvalid : validBytes t.getRoot := by
    show validBytes ((t.layers.getLastD []).headD [])
    rw [hly]
    apply getLayersRoot_valid H hH
    rw [← hel]
    exact hvalelems
  have hrootchars : ∀ c ∈ (MerkleTree.getHexRoot t).data, c ∈ hexAlphabet := by
    intro c hc
    exact hexChars_mem_alphabet t.getRoot hrootvalid c hc
  refine ⟨hrootchars, ?_, ?_⟩
  · intro hpre
    have hx : 'x' ∈ (MerkleTree.getHexRoot t).data := by
      apply List.take_subset 2 (MerkleTree.getHexRoot t).data
      rw [hpre]
      simp
    have hmem := hrootchars 'x' hx
    exact absurd hmem (by decide)
  · intro s hs
    obtain ⟨proof, hproof, hhp'⟩ : ∃ proof, t.getProof H e = .ok proof ∧
        hp = bufArrToHexArr proof := by
      rcases hgp : t.getProof H e with msg | proof
      · rw [MerkleTree.getHexProof, hgp] at hhp
        simp [Except.map] at hhp
      · rw [MerkleTree.getHexProof, hgp] at hhp
        simp only [Except.map] at hhp
        injection hhp with h'
        exact ⟨proof, rfl, h'.symm⟩
    subst hhp'
    unfold bufArrToHexArr at hs
    obtain ⟨bs, hbs, hmap⟩ := List.mem_map.mp hs
    refine ⟨bs, hmap.symm, ?_⟩
    have hbsvalid : validBytes bs :=
      getProof_ok_valid H hH t e proof hvalelems hproof bs hbs
    intro c hc
    exact hexChars_mem_alphabet bs hbsvalid c hc

/-- Claim C9 witness: on a concrete one-leaf tree (with a digest function
producing valid bytes) the root hex is lowercase unprefixed and the single
proof element's hex string is the `0x`-prefixed encoding of the sentinel. -/
theorem claim_C9_hex_outputs_witness :
    (∀ c ∈ (MerkleTree.getHexRoot ((construct vHash [[1]]).toOption.getD
        mtDefault)).data, c ∈ hexAlphabet) ∧
      ((MerkleTree.getHexRoot ((construct vHash [[1]]).toOption.getD
        mtDefault)).data.take 2 ≠ ['0', 'x']) ∧
      (∀ s ∈ [hex0x], ∃ bs, s = hex0x ++ hexEncode bs ∧
        ∀ c ∈ (hexEncode bs).data, c ∈ hexAlphabet) :=
  claim_C9_hex_outputs vHash [[1]] ((construct vHash [[1]]).toOption.getD mtDefault)
    [1] [hex0x] (construct_ok_getD vHash [[1]] (by decide)) (by decide)
    (fun l => by
      intro b hb
      simp [vHash] at hb
      omega)
    (by decide)

/-- Claim C10: constructing from an odd number of leaves records the
padding sentinel itself in the position index — the empty buffer's hex
encoding (the empty string) maps to the padding position — so `getProof`
on a zero-length buffer succeeds with a proof instead of erroring. -/
theorem claim_C10_pad_sentinel_indexed (H : Bytes → Bytes) (leaves : List Bytes)
    (t : MerkleTree) (hok : construct H leaves = .ok t)
    (hodd : leaves.length % 2 = 1) :
    t.positionIndex (hexEncode []) = some leaves.length ∧
    ∃ p, t.getProof H [] = .ok p := by
  obtain ⟨hel, hpi, _, _⟩ := construct_ok H leaves t hok
  have hpad : padLayer leaves = leaves ++ [[]] := by
    unfold padLayer
    rw [if_pos hodd]
  have hgetD : (padLayer leaves).getD leaves.length [] = [] :=
    padLayer_getD_pad leaves hodd
  have hlast : lastIdxOf (hexEncode []) (padLayer leaves) = some leaves.length := by
    apply lastIdxOf_last
    · rw [hpad]
      simp
    · rw [hgetD]
    · intro j hj1 hj2
      exfalso
      rw [hpad] at hj2
      simp only [List.length_append, List.length_singleton] at hj2
      omega
  have hlookup : t.positionIndex (hexEncode []) = some leaves.length := by
    rw [hpi, buildIndex_eq, hlast]
  refine ⟨hlookup, getProofGo H t.elements.length t.elements leaves.length, ?_⟩
  show (match t.positionIndex (hexEncode []) with
    | none => Except.error notFoundMsg
    | some initialIdx => Except.ok (getProofGo H t.elements.length t.elements initialIdx)) =
      Except.ok (getProofGo H t.elements.length t.elements leaves.length)
  rw [hlookup]

/-- Claim C10 witness: the one-leaf (odd) construction records the empty
string key at position 1 and `getProof` of the empty buffer succeeds. -/
theorem claim_C10_pad_sentinel_indexed_witness :
    ((construct cHash [[1]]).toOption.getD mtDefault).positionIndex (hexEncode []) =
        some 1 ∧
      ∃ p, ((construct cHash [[1]]).toOption.getD mtDefault).getProof cHash [] = .ok p :=
  claim_C10_pad_sentinel_indexed cHash [[1]]
    ((construct cHash [[1]]).toOption.getD mtDefault)
    (construct_ok_getD cHash [[1]] (by decide)) (by decide)
